import Mathlib

/-!
# Verification of the FIFO lot-matching engine of `calculate_hold_time_stats`

Shallow embedding of `ApexCalculator.calculate_hold_time_stats`
(`src/apex_fork.py`, the position-pairing engine plus the hold-time
aggregation) and proofs about it.

Embedding conventions:
* Python `float` quantities are modelled as exact rationals (`ℚ`);
  timestamps (epoch milliseconds) as `ℤ`.
* The `sz` field of a raw fill may be a number, a numeric string, an
  unparsable string, or absent; `float(fill.get('sz', 0))` is modelled by
  `parseSize`, whose `none` result models the `ValueError` that `float`
  raises on an unparsable string.
* Missing `coin` / `time` keys are encoded by the defaults the source
  supplies to `.get` (`""` and `0`).
* `datetime.fromtimestamp` differences and comparisons are modelled
  directly on epoch milliseconds (fixed-offset clock model); the
  `today_start` midnight computed by the source from `datetime.now()`
  is a parameter `todayStart` in milliseconds.
* The source keeps completed positions as bare `(open_time, close_time,
  size)` triples; the embedding additionally records the symbol and side
  each triple was produced for (both are statically known at every
  `append` site in the source), so that per-symbol/per-side sums can be
  stated.
-/

namespace ApexFork

/-- ASCII lower-casing of one character, as Python `str.lower` acts on the
direction labels occurring here (all labels are ASCII). -/
def lowerChars (s : List Char) : List Char := s.map Char.toLower

/-- Whitespace characters stripped by Python `str.strip()` (the ones that
can occur in direction labels). -/
def isPySpace (c : Char) : Bool := c == ' ' || c == '\t' || c == '\n' || c == '\r'

/-- Python `str.strip()`: remove whitespace from both ends. -/
def stripChars (s : List Char) : List Char :=
  ((s.dropWhile isPySpace).reverse.dropWhile isPySpace).reverse

/-- Does `s` start with `pat`? (Helper for Python's `in` operator.) -/
def startsList : List Char → List Char → Bool
  | _, [] => true
  | [], _ :: _ => false
  | a :: s, b :: p => a == b && startsList s p

/-- Python's substring test `pat in s`. -/
def containsList : List Char → List Char → Bool
  | [], pat => pat.isEmpty
  | a :: rest, pat => startsList (a :: rest) pat || containsList rest pat

/-- The closed set of event categories the matcher dispatches on.
The source's `Buy` branch has the same body as its `'open long'` branch and
its `Sell` branch the same body as its `'close long'` branch, so those pairs
share a category. -/
inductive Category where
  | openLong | openShort | closeLong | closeShort
  | flipShortToLong | flipLongToShort | unclassified
deriving DecidableEq, Repr

/-- Direction classification: the exact `if`/`elif` chain of the source, in
source order.  `direction = fill.get('dir','').strip()`; the spot labels are
compared case-sensitively against `'Buy'` / `'Sell'`, everything else is a
case-insensitive substring test on `direction.lower()`. -/
def classify (dirRaw : String) : Category :=
  let direction := stripChars dirRaw.data
  let dirLower := lowerChars direction
  if direction = "Buy".data then .openLong
  else if direction = "Sell".data then .closeLong
  else if containsList dirLower "open long".data && !containsList dirLower "short".data then
    .openLong
  else if containsList dirLower "open short".data && !containsList dirLower "long".data then
    .openShort
  else if containsList dirLower "close long".data && !containsList dirLower "short".data then
    .closeLong
  else if containsList dirLower "close short".data && !containsList dirLower "long".data then
    .closeShort
  else if containsList dirLower "short > long".data || containsList dirLower "short>long".data then
    .flipShortToLong
  else if containsList dirLower "long > short".data || containsList dirLower "long>short".data then
    .flipLongToShort
  else .unclassified

/-- The raw `sz` field of a fill: a numeric value (a number, or a numeric
string that `float` parses to it), an unparsable string, or absent. -/
inductive SzVal where
  | num (q : ℚ)
  | badStr
  | missing
deriving DecidableEq

/-- Python `abs`. -/
def pyAbs (q : ℚ) : ℚ := if q < 0 then -q else q

/-- Size extraction `abs(float(fill.get('sz', 0)))`: `none` models the
`ValueError` raised by `float` on an unparsable string; an absent key
defaults to `0`. -/
def parseSize : SzVal → Option ℚ
  | .num q => some (pyAbs q)
  | .badStr => none
  | .missing => some 0

/-- One raw fill record, with the `.get` defaults of the source already
applied to `coin` and `time`. -/
structure Fill where
  coin : String
  dir : String
  time : Int
  sz : SzVal

/-- Long or short side of a per-symbol lot book. -/
inductive Side where
  | long | short
deriving DecidableEq, Repr

/-- One open lot: the `[open_time, remaining_size]` pairs the source keeps
in its per-coin queues. -/
structure Lot where
  open_time : Int
  size : ℚ
deriving DecidableEq, Repr

/-- One completed round-trip: the `(open_time, close_time, size)` triples of
`completed_positions`, annotated with the symbol and side they were emitted
for. -/
structure Position where
  symbol : String
  side : Side
  open_time : Int
  close_time : Int
  matched_size : ℚ
deriving DecidableEq, Repr

/-- The matcher's mutable state: `long_open_positions`,
`short_open_positions` (defaultdicts with default `[]`) and
`completed_positions`. -/
structure MatchState where
  longQ : String → List Lot
  shortQ : String → List Lot
  positions : List Position

/-- The `1e-9` epsilon of the source's while-loop guard. -/
def epsilon : ℚ := 1 / 1000000000

/-- Point update of a per-coin book. -/
def updateBook (book : String → List Lot) (coin : String) (q : List Lot) :
    String → List Lot :=
  fun c => if c = coin then q else book c

/-- The close-matching while-loop of the source: pop from the head while
`remaining > 1e-9` and the queue is non-empty; fully consume the head when
`head.size ≤ remaining`, otherwise split it.  Returns the emitted positions
(in emission order) and the remaining queue. -/
def consume (symbol : String) (side : Side) (closeTime : Int) :
    ℚ → List Lot → List Position × List Lot
  | _, [] => ([], [])
  | remaining, lot :: rest =>
    if remaining ≤ epsilon then ([], lot :: rest)
    else if lot.size ≤ remaining then
      let r := consume symbol side closeTime (remaining - lot.size) rest
      (⟨symbol, side, lot.open_time, closeTime, lot.size⟩ :: r.1, r.2)
    else
      ([⟨symbol, side, lot.open_time, closeTime, remaining⟩],
        ⟨lot.open_time, lot.size - remaining⟩ :: rest)

/-- The flip while-loop: unconditionally pop and close every lot of the
queue. -/
def drainAll (symbol : String) (side : Side) (closeTime : Int) (q : List Lot) :
    List Position :=
  q.map fun lot => ⟨symbol, side, lot.open_time, closeTime, lot.size⟩

/-- Processing of a single (already time-sorted) fill: the body of the
source's `for fill in sorted_fills` loop.  `none` models an uncaught
exception from size parsing. -/
def processFill (s : MatchState) (f : Fill) : Option MatchState :=
  match parseSize f.sz with
  | none => none
  | some size =>
    if f.coin = "" ∨ f.time = 0 ∨ size = 0 then some s
    else
      match classify f.dir with
      | .openLong =>
        some { s with longQ := updateBook s.longQ f.coin (s.longQ f.coin ++ [⟨f.time, size⟩]) }
      | .openShort =>
        some { s with shortQ := updateBook s.shortQ f.coin (s.shortQ f.coin ++ [⟨f.time, size⟩]) }
      | .closeLong =>
        let r := consume f.coin .long f.time size (s.longQ f.coin)
        some { s with longQ := updateBook s.longQ f.coin r.2,
                      positions := s.positions ++ r.1 }
      | .closeShort =>
        let r := consume f.coin .short f.time size (s.shortQ f.coin)
        some { s with shortQ := updateBook s.shortQ f.coin r.2,
                      positions := s.positions ++ r.1 }
      | .flipShortToLong =>
        some { s with shortQ := updateBook s.shortQ f.coin [],
                      longQ := updateBook s.longQ f.coin (s.longQ f.coin ++ [⟨f.time, size⟩]),
                      positions := s.positions ++ drainAll f.coin .short f.time (s.shortQ f.coin) }
      | .flipLongToShort =>
        some { s with longQ := updateBook s.longQ f.coin [],
                      shortQ := updateBook s.shortQ f.coin (s.shortQ f.coin ++ [⟨f.time, size⟩]),
                      positions := s.positions ++ drainAll f.coin .long f.time (s.longQ f.coin) }
      | .unclassified => some s

/-- The sort `sorted(fills, key=lambda x: x.get('time', 0))`: a stable sort
by timestamp (insertion sort is stable, like the Python sort). -/
def sortFills (fills : List Fill) : List Fill :=
  List.insertionSort (fun a b => a.time ≤ b.time) fills

/-- Fresh empty state (the defaultdicts and `completed_positions = []`). -/
def initState : MatchState := ⟨fun _ => [], fun _ => [], []⟩

/-- Fold of `processFill` over an event list, propagating exceptions. -/
def runFills (s : MatchState) : List Fill → Option MatchState
  | [] => some s
  | f :: rest =>
    match processFill s f with
    | none => none
    | some s' => runFills s' rest

/-- The whole matching pass: sort by time, then replay. -/
def matchFills (fills : List Fill) : Option MatchState :=
  runFills initState (sortFills fills)

/-- Milliseconds per day. -/
def msPerDay : Int := 86400000

/-- Hold duration `(close_dt - open_dt).total_seconds() / 86400` of one
completed position, expressed on epoch milliseconds. -/
def holdDays (p : Position) : ℚ := ((p.close_time - p.open_time : Int) : ℚ) / 86400000

/-- The four bucket-membership lists built by the source's classification
loop over `completed_positions` (today / last 7 days / last 30 days /
all time), in source iteration order. -/
def bucketLists (todayStart weekAgo monthAgo : Int) :
    List Position → List ℚ × List ℚ × List ℚ × List ℚ
  | [] => ([], [], [], [])
  | p :: rest =>
    let r := bucketLists todayStart weekAgo monthAgo rest
    let h := holdDays p
    ((if todayStart ≤ p.close_time then h :: r.1 else r.1),
     (if weekAgo ≤ p.close_time then h :: r.2.1 else r.2.1),
     (if monthAgo ≤ p.close_time then h :: r.2.2.1 else r.2.2.1),
     h :: r.2.2.2)

/-- The result record of `calculate_hold_time_stats`. -/
structure HoldStats where
  todayCount : ℚ
  last7DaysAverage : ℚ
  last30DaysAverage : ℚ
  allTimeAverage : ℚ
deriving DecidableEq, Repr

/-- The aggregation stage of the source: bucket the completed positions,
then `sum(xs)/len(xs) if xs else 0` per bucket.  `todayStart` is the epoch
milliseconds of `datetime(now.year, now.month, now.day)`; `week_ago` and
`month_ago` are 7 and 30 days earlier. -/
def aggregate (ps : List Position) (todayStart : Int) : HoldStats :=
  let b := bucketLists todayStart (todayStart - 7 * msPerDay) (todayStart - 30 * msPerDay) ps
  ⟨if b.1.isEmpty then 0 else b.1.sum / b.1.length,
   if b.2.1.isEmpty then 0 else b.2.1.sum / b.2.1.length,
   if b.2.2.1.isEmpty then 0 else b.2.2.1.sum / b.2.2.1.length,
   if b.2.2.2.isEmpty then 0 else b.2.2.2.sum / b.2.2.2.length⟩

/-- The full `calculate_hold_time_stats`: early zero return on an empty fill
list, otherwise match then aggregate.  `none` models an uncaught exception. -/
def calculate_hold_time_stats (fills : List Fill) (todayStart : Int) : Option HoldStats :=
  if fills.isEmpty then some ⟨0, 0, 0, 0⟩
  else (matchFills fills).map fun s => aggregate s.positions todayStart

/-- Arithmetic mean with the empty-bucket guard of the source
(specification-side formulation used to state the aggregator claim). -/
def meanQ (xs : List ℚ) : ℚ := if xs.isEmpty then 0 else xs.sum / xs.length

/-- Size of a fill as matched (defensive read, used only to state sums over
fills whose size is known to parse). -/
def fillSize (f : Fill) : ℚ := (parseSize f.sz).getD 0

/-- The category that opens a lot on side `sd`. -/
def openCat : Side → Category
  | .long => .openLong
  | .short => .openShort

/-- The category that closes lots on side `sd`. -/
def closeCat : Side → Category
  | .long => .closeLong
  | .short => .closeShort

/-- The queue of state `s` for a symbol and side. -/
def queueOf (s : MatchState) (c : String) : Side → List Lot
  | .long => s.longQ c
  | .short => s.shortQ c

/-- Total size held in the fills of `evs` that open side `sd` of symbol
`c`. -/
def openSum (c : String) (sd : Side) (evs : List Fill) : ℚ :=
  ((evs.filter fun f => f.coin == c && classify f.dir == openCat sd).map fillSize).sum

/-- Total size requested by the fills of `evs` that close side `sd` of
symbol `c`. -/
def closeSum (c : String) (sd : Side) (evs : List Fill) : ℚ :=
  ((evs.filter fun f => f.coin == c && classify f.dir == closeCat sd).map fillSize).sum

/-- Total matched size of the positions of `ps` emitted for symbol `c` and
side `sd`. -/
def posSum (c : String) (sd : Side) (ps : List Position) : ℚ :=
  ((ps.filter fun p => p.symbol == c && p.side == sd).map Position.matched_size).sum

/-- A lot queue ordered by non-decreasing open time from head to tail. -/
def sortedQ (q : List Lot) : Prop :=
  List.Pairwise (fun a b => a.open_time ≤ b.open_time) q

/-- Every lot of the queue holds a positive integer size. -/
def lotsIntPos (q : List Lot) : Prop :=
  ∀ lot ∈ q, ∃ n : ℕ, 0 < n ∧ lot.size = (n : ℚ)

/-- Total size held in a lot queue. -/
def qTotal (q : List Lot) : ℚ := (q.map Lot.size).sum

/-- Successor state of an open-long event (also used by the spot Buy label). -/
def pushL (s : MatchState) (coin : String) (t : Int) (sz : ℚ) : MatchState :=
  { s with longQ := updateBook s.longQ coin (s.longQ coin ++ [⟨t, sz⟩]) }

/-- Successor state of an open-short event. -/
def pushS (s : MatchState) (coin : String) (t : Int) (sz : ℚ) : MatchState :=
  { s with shortQ := updateBook s.shortQ coin (s.shortQ coin ++ [⟨t, sz⟩]) }

/-- Successor state of a close-long event (also used by the spot Sell label). -/
def closeL (s : MatchState) (coin : String) (t : Int) (sz : ℚ) : MatchState :=
  { s with longQ := updateBook s.longQ coin (consume coin .long t sz (s.longQ coin)).2,
           positions := s.positions ++ (consume coin .long t sz (s.longQ coin)).1 }

/-- Successor state of a close-short event. -/
def closeS (s : MatchState) (coin : String) (t : Int) (sz : ℚ) : MatchState :=
  { s with shortQ := updateBook s.shortQ coin (consume coin .short t sz (s.shortQ coin)).2,
           positions := s.positions ++ (consume coin .short t sz (s.shortQ coin)).1 }

/-- Successor state of a long-to-short flip event. -/
def flipLS (s : MatchState) (coin : String) (t : Int) (sz : ℚ) : MatchState :=
  { s with longQ := updateBook s.longQ coin [],
           shortQ := updateBook s.shortQ coin (s.shortQ coin ++ [⟨t, sz⟩]),
           positions := s.positions ++ drainAll coin .long t (s.longQ coin) }

/-- Successor state of a short-to-long flip event. -/
def flipSL (s : MatchState) (coin : String) (t : Int) (sz : ℚ) : MatchState :=
  { s with shortQ := updateBook s.shortQ coin [],
           longQ := updateBook s.longQ coin (s.longQ coin ++ [⟨t, sz⟩]),
           positions := s.positions ++ drainAll coin .short t (s.shortQ coin) }

/-! ## Classification of the concrete direction labels -/

lemma classify_open_long : classify "Open Long" = .openLong := by decide

lemma classify_close_long : classify "Close Long" = .closeLong := by decide

lemma classify_open_short : classify "Open Short" = .openShort := by decide

lemma classify_close_short : classify "Close Short" = .closeShort := by decide

lemma classify_long_gt_short : classify "Long > Short" = .flipLongToShort := by decide

lemma classify_short_gt_long : classify "Short > Long" = .flipShortToLong := by decide

lemma classify_buy : classify "Buy" = .openLong := by decide

lemma classify_sell : classify "Sell" = .closeLong := by decide

lemma classify_BUY : classify "BUY" = .unclassified := by decide

/-! ## Generic facts about the consume loop -/

/-- Open times of the emitted positions form a prefix of the open times of
the queue: consumption always starts at the head and proceeds in order. -/
lemma consume_map_open_take (sym : String) (sd : Side) (t : Int) :
    ∀ (r : ℚ) (q : List Lot), ∃ k,
      (consume sym sd t r q).1.map Position.open_time = (q.map Lot.open_time).take k := by
  intro r q
  induction q generalizing r with
  | nil => exact ⟨0, by simp [consume]⟩
  | cons lot rest ih =>
    by_cases h1 : r ≤ epsilon
    · exact ⟨0, by simp [consume, h1]⟩
    · by_cases h2 : lot.size ≤ r
      · obtain ⟨k, hk⟩ := ih (r - lot.size)
        exact ⟨k + 1, by simp [consume, h1, h2, hk]⟩
      · exact ⟨1, by simp [consume, h1, h2]⟩

/-- On a non-empty queue with a request above the epsilon threshold, the
consumed prefix is non-empty and its first position carries the open time of
the queue head. -/
lemma consume_head_first (sym : String) (sd : Side) (t : Int) (r : ℚ)
    (lot : Lot) (rest : List Lot) (hr : epsilon < r) :
    ∃ ps, (consume sym sd t r (lot :: rest)).1
      = ⟨sym, sd, lot.open_time, t, min lot.size r⟩ :: ps := by
  by_cases h2 : lot.size ≤ r
  · exact ⟨(consume sym sd t (r - lot.size) rest).1,
      by simp [consume, not_le.mpr hr, h2, min_eq_left h2]⟩
  · exact ⟨[], by simp [consume, not_le.mpr hr, h2, min_eq_right (le_of_not_le h2)]⟩

/-- Facts preserved through one consume call: any property of the open times
of the queue lots carries to the emitted positions and to the remaining
queue, and every emitted position carries the closing event data. -/
lemma consume_preserve (sym : String) (sd : Side) (t : Int) (P : Int → Prop) :
    ∀ (r : ℚ) (q : List Lot), (∀ lot ∈ q, P lot.open_time) →
      (∀ p ∈ (consume sym sd t r q).1,
        P p.open_time ∧ p.close_time = t ∧ p.symbol = sym ∧ p.side = sd)
      ∧ (∀ lot ∈ (consume sym sd t r q).2, P lot.open_time) := by
  intro r q
  induction q generalizing r with
  | nil => intro _; simp [consume]
  | cons lot rest ih =>
    intro hq
    by_cases h1 : r ≤ epsilon
    · simpa [consume, h1] using hq
    · by_cases h2 : lot.size ≤ r
      · have hrest := ih (r - lot.size) (fun l hl => hq l (List.mem_cons_of_mem _ hl))
        constructor
        · intro p hp
          simp only [consume, if_neg h1, if_pos h2, List.mem_cons] at hp
          rcases hp with rfl | hp
          · exact ⟨hq lot (List.mem_cons_self _ _), rfl, rfl, rfl⟩
          · exact hrest.1 p hp
        · intro l hl
          simp only [consume, if_neg h1, if_pos h2] at hl
          exact hrest.2 l hl
      · constructor
        · intro p hp
          simp only [consume, if_neg h1, if_neg h2, List.mem_singleton] at hp
          subst hp
          exact ⟨hq lot (List.mem_cons_self _ _), rfl, rfl, rfl⟩
        · intro l hl
          simp only [consume, if_neg h1, if_neg h2, List.mem_cons] at hl
          rcases hl with rfl | hl
          · exact hq lot (List.mem_cons_self _ _)
          · exact hq l (List.mem_cons_of_mem _ hl)

/-- Consuming preserves the FIFO ordering of the queue. -/
lemma consume_sortedQ (sym : String) (sd : Side) (t : Int) :
    ∀ (r : ℚ) (q : List Lot), sortedQ q → sortedQ (consume sym sd t r q).2 := by
  intro r q
  induction q generalizing r with
  | nil => intro _; simp [consume, sortedQ]
  | cons lot rest ih =>
    intro hq
    by_cases h1 : r ≤ epsilon
    · simpa [consume, h1] using hq
    · rcases List.pairwise_cons.mp hq with ⟨hlot, hrest⟩
      by_cases h2 : lot.size ≤ r
      · simpa [consume, h1, h2] using ih (r - lot.size) hrest
      · simp only [consume, if_neg h1, if_neg h2]
        exact List.pairwise_cons.mpr ⟨hlot, hrest⟩

/-- With a FIFO-ordered queue, every emitted position is at least as old as
every lot left in the queue: the oldest lot is consumed first. -/
lemma consume_emitted_le_rest (sym : String) (sd : Side) (t : Int) :
    ∀ (r : ℚ) (q : List Lot), sortedQ q →
      ∀ p ∈ (consume sym sd t r q).1, ∀ lot ∈ (consume sym sd t r q).2,
        p.open_time ≤ lot.open_time := by
  intro r q
  induction q generalizing r with
  | nil => intro _; simp [consume]
  | cons lot rest ih =>
    intro hq
    by_cases h1 : r ≤ epsilon
    · simp [consume, h1]
    · rcases List.pairwise_cons.mp hq with ⟨hlot, hrest⟩
      by_cases h2 : lot.size ≤ r
      · intro p hp l hl
        simp only [consume, if_neg h1, if_pos h2, List.mem_cons] at hp hl
        rcases hp with rfl | hp
        · exact (consume_preserve sym sd t (fun x => lot.open_time ≤ x)
            (r - lot.size) rest hlot).2 l hl
        · exact ih (r - lot.size) hrest p hp l hl
      · intro p hp l hl
        simp only [consume, if_neg h1, if_neg h2, List.mem_singleton, List.mem_cons,
          List.not_mem_nil, or_false] at hp hl
        subst hp
        rcases hl with rfl | hl
        · simp
        · exact hlot l hl

/-- With positive integer lot sizes and an integer request covered by the
queue, the consume loop matches exactly the requested size: the epsilon
guard can never truncate a positive integer remainder. -/
lemma consume_int_exact (sym : String) (sd : Side) (t : Int) :
    ∀ (n : ℕ) (q : List Lot), lotsIntPos q → (n : ℚ) ≤ qTotal q →
      ((consume sym sd t (n : ℚ) q).1.map Position.matched_size).sum = (n : ℚ)
      ∧ qTotal (consume sym sd t (n : ℚ) q).2 = qTotal q - (n : ℚ)
      ∧ lotsIntPos (consume sym sd t (n : ℚ) q).2 := by
  intro n q
  induction q generalizing n with
  | nil =>
    intro _ hle
    have hn : (n : ℚ) = 0 := le_antisymm (by simpa [qTotal] using hle) (by positivity)
    simp [consume, qTotal, lotsIntPos, hn]
  | cons lot rest ih =>
    intro hint hle
    rcases hint lot (List.mem_cons_self _ _) with ⟨m, hm0, hm⟩
    have hrestint : lotsIntPos rest := fun l hl => hint l (List.mem_cons_of_mem _ hl)
    rcases Nat.eq_zero_or_pos n with hn0 | hn0
    · subst hn0
      have h1 : ((0 : ℕ) : ℚ) ≤ epsilon := by norm_num [epsilon]
      simp only [Nat.cast_zero] at h1 ⊢
      simp only [consume, if_pos h1]
      refine ⟨by simp, by ring_nf, hint⟩
    · have h1 : ¬ ((n : ℚ) ≤ epsilon) := by
        rw [not_le]
        calc epsilon < 1 := by norm_num [epsilon]
        _ ≤ (n : ℚ) := by exact_mod_cast hn0
      have hqt : qTotal (lot :: rest) = lot.size + qTotal rest := by simp [qTotal]
      by_cases h2 : lot.size ≤ (n : ℚ)
      · have hmn : m ≤ n := by exact_mod_cast hm ▸ h2
        have hcast : (n : ℚ) - lot.size = ((n - m : ℕ) : ℚ) := by
          rw [hm]; push_cast [Nat.cast_sub hmn]; ring
        have hle' : ((n - m : ℕ) : ℚ) ≤ qTotal rest := by
          rw [← hcast, hm]
          have := hle
          rw [hqt, hm] at this
          linarith
        have hrec := ih (n - m) hrestint hle'
        simp only [consume, if_neg h1, if_pos h2, hcast]
        refine ⟨?_, ?_, hrec.2.2⟩
        · simp only [List.map_cons, List.sum_cons, hrec.1]
          rw [hm, ← hcast, hm]; ring
        · rw [hrec.2.1, hqt, ← hcast]; ring
      · simp only [consume, if_neg h1, if_neg h2]
        have hnm : n < m := by
          have : (n : ℚ) < (m : ℚ) := by rw [← hm]; exact lt_of_not_le h2
          exact_mod_cast this
        refine ⟨by simp, ?_, ?_⟩
        · simp only [qTotal, List.map_cons, List.sum_cons]
          ring
        · intro l hl
          rcases List.mem_cons.mp hl with rfl | hl
          · exact ⟨m - n, by omega, by
              simp only [hm]
              push_cast [Nat.cast_sub (le_of_lt hnm)]
              ring⟩
          · exact hrestint l hl

/-- Appending a fresh lot at the tail preserves FIFO ordering, provided no
existing lot is newer than the appended one. -/
lemma sortedQ_push (q : List Lot) (t : Int) (sz : ℚ) (hs : sortedQ q)
    (hb : ∀ lot ∈ q, lot.open_time ≤ t) : sortedQ (q ++ [⟨t, sz⟩]) := by
  rw [sortedQ, List.pairwise_append]
  exact ⟨hs, List.pairwise_singleton _ _, fun a ha b hb' => by
    rcases List.mem_singleton.mp hb' with rfl
    exact hb a ha⟩

/-- Membership after a point update of a book. -/
lemma mem_updateBook (book : String → List Lot) (coin : String) (q : List Lot)
    (c : String) (lot : Lot) (h : lot ∈ updateBook book coin q c) :
    lot ∈ q ∨ lot ∈ book c := by
  unfold updateBook at h
  split at h
  · exact Or.inl h
  · exact Or.inr h

/-- Processing one fill preserves the ordering invariants: positions close
no earlier than they open, queues stay FIFO-ordered, and no queued lot is
newer than the fill just processed. -/
lemma processFill_preserve (s : MatchState) (f : Fill) (s' : MatchState)
    (h : processFill s f = some s')
    (hpos : ∀ p ∈ s.positions, p.open_time ≤ p.close_time)
    (hsort : ∀ c, sortedQ (s.longQ c) ∧ sortedQ (s.shortQ c))
    (hb : ∀ c lot, lot ∈ s.longQ c ∨ lot ∈ s.shortQ c → lot.open_time ≤ f.time) :
    (∀ p ∈ s'.positions, p.open_time ≤ p.close_time)
    ∧ (∀ c, sortedQ (s'.longQ c) ∧ sortedQ (s'.shortQ c))
    ∧ (∀ c lot, lot ∈ s'.longQ c ∨ lot ∈ s'.shortQ c → lot.open_time ≤ f.time) := by
  unfold processFill at h
  cases hp : parseSize f.sz with
  | none => simp [hp] at h
  | some size =>
  rw [hp] at h
  dsimp only at h
  by_cases hv : f.coin = "" ∨ f.time = 0 ∨ size = 0
  · rw [if_pos hv] at h
    cases h
    exact ⟨hpos, hsort, hb⟩
  · rw [if_neg hv] at h
    have hpushL : ∀ c, sortedQ (updateBook s.longQ f.coin
        (s.longQ f.coin ++ [⟨f.time, size⟩]) c) := by
      intro c
      unfold updateBook
      split
      · exact sortedQ_push _ _ _ (hsort f.coin).1
          (fun lot hl => hb f.coin lot (Or.inl hl))
      · exact (hsort c).1
    have hpushS : ∀ c, sortedQ (updateBook s.shortQ f.coin
        (s.shortQ f.coin ++ [⟨f.time, size⟩]) c) := by
      intro c
      unfold updateBook
      split
      · exact sortedQ_push _ _ _ (hsort f.coin).2
          (fun lot hl => hb f.coin lot (Or.inr hl))
      · exact (hsort c).2
    have hbpushL : ∀ c lot, lot ∈ updateBook s.longQ f.coin
        (s.longQ f.coin ++ [⟨f.time, size⟩]) c → lot.open_time ≤ f.time := by
      intro c lot hl
      rcases mem_updateBook _ _ _ _ _ hl with hl | hl
      · rcases List.mem_append.mp hl with hl | hl
        · exact hb f.coin lot (Or.inl hl)
        · rcases List.mem_singleton.mp hl with rfl; exact le_refl _
      · exact hb c lot (Or.inl hl)
    have hbpushS : ∀ c lot, lot ∈ updateBook s.shortQ f.coin
        (s.shortQ f.coin ++ [⟨f.time, size⟩]) c → lot.open_time ≤ f.time := by
      intro c lot hl
      rcases mem_updateBook _ _ _ _ _ hl with hl | hl
      · rcases List.mem_append.mp hl with hl | hl
        · exact hb f.coin lot (Or.inr hl)
        · rcases List.mem_singleton.mp hl with rfl; exact le_refl _
      · exact hb c lot (Or.inr hl)
    cases hc : classify f.dir <;> rw [hc] at h <;> cases h
    · -- openLong
      refine ⟨hpos, fun c => ⟨hpushL c, (hsort c).2⟩, ?_⟩
      intro c lot hl
      rcases hl with hl | hl
      · exact hbpushL c lot hl
      · exact hb c lot (Or.inr hl)
    · -- openShort
      refine ⟨hpos, fun c => ⟨(hsort c).1, hpushS c⟩, ?_⟩
      intro c lot hl
      rcases hl with hl | hl
      · exact hb c lot (Or.inl hl)
      · exact hbpushS c lot hl
    · -- closeLong
      have hcons := consume_preserve f.coin .long f.time (fun x => x ≤ f.time)
        size (s.longQ f.coin) (fun lot hl => hb f.coin lot (Or.inl hl))
      refine ⟨?_, ?_, ?_⟩
      · intro p hp'
        rcases List.mem_append.mp hp' with hp' | hp'
        · exact hpos p hp'
        · rcases hcons.1 p hp' with ⟨hle, hclose, _, _⟩
          simp [hclose, hle]
      · intro c
        refine ⟨?_, (hsort c).2⟩
        dsimp only
        unfold updateBook
        split
        · exact consume_sortedQ _ _ _ _ _ (hsort f.coin).1
        · exact (hsort c).1
      · intro c lot hl
        rcases hl with hl | hl
        · rcases mem_updateBook _ _ _ _ _ hl with hl | hl
          · exact hcons.2 lot hl
          · exact hb c lot (Or.inl hl)
        · exact hb c lot (Or.inr hl)
    · -- closeShort
      have hcons := consume_preserve f.coin .short f.time (fun x => x ≤ f.time)
        size (s.shortQ f.coin) (fun lot hl => hb f.coin lot (Or.inr hl))
      refine ⟨?_, ?_, ?_⟩
      · intro p hp'
        rcases List.mem_append.mp hp' with hp' | hp'
        · exact hpos p hp'
        · rcases hcons.1 p hp' with ⟨hle, hclose, _, _⟩
          simp [hclose, hle]
      · intro c
        refine ⟨(hsort c).1, ?_⟩
        dsimp only
        unfold updateBook
        split
        · exact consume_sortedQ _ _ _ _ _ (hsort f.coin).2
        · exact (hsort c).2
      · intro c lot hl
        rcases hl with hl | hl
        · exact hb c lot (Or.inl hl)
        · rcases mem_updateBook _ _ _ _ _ hl with hl | hl
          · exact hcons.2 lot hl
          · exact hb c lot (Or.inr hl)
    · -- flipShortToLong
      refine ⟨?_, fun c => ⟨hpushL c, ?_⟩, ?_⟩
      · intro p hp'
        rcases List.mem_append.mp hp' with hp' | hp'
        · exact hpos p hp'
        · rcases List.mem_map.mp hp' with ⟨lot, hl, rfl⟩
          exact hb f.coin lot (Or.inr hl)
      · dsimp only
        unfold updateBook
        split
        · exact List.Pairwise.nil
        · exact (hsort c).2
      · intro c lot hl
        rcases hl with hl | hl
        · exact hbpushL c lot hl
        · rcases mem_updateBook _ _ _ _ _ hl with hl | hl
          · cases hl
          · exact hb c lot (Or.inr hl)
    · -- flipLongToShort
      refine ⟨?_, fun c => ⟨?_, hpushS c⟩, ?_⟩
      · intro p hp'
        rcases List.mem_append.mp hp' with hp' | hp'
        · exact hpos p hp'
        · rcases List.mem_map.mp hp' with ⟨lot, hl, rfl⟩
          exact hb f.coin lot (Or.inl hl)
      · dsimp only
        unfold updateBook
        split
        · exact List.Pairwise.nil
        · exact (hsort c).1
      · intro c lot hl
        rcases hl with hl | hl
        · rcases mem_updateBook _ _ _ _ _ hl with hl | hl
          · cases hl
          · exact hb c lot (Or.inl hl)
        · exact hbpushS c lot hl
    · -- unclassified
      exact ⟨hpos, hsort, hb⟩

instance : IsTotal Fill (fun a b => a.time ≤ b.time) :=
  ⟨fun a b => Int.le_total a.time b.time⟩

instance : IsTrans Fill (fun a b => a.time ≤ b.time) :=
  ⟨fun _ _ _ hab hbc => le_trans hab hbc⟩

/-- The normalizer output is pairwise ordered by timestamp. -/
lemma sortFills_pairwise (fills : List Fill) :
    List.Pairwise (fun a b : Fill => a.time ≤ b.time) (sortFills fills) :=
  List.sorted_insertionSort (fun a b : Fill => a.time ≤ b.time) fills

/-- Replaying a time-ordered event list preserves the ordering invariants
through to the final state. -/
lemma runFills_preserve (evs : List Fill) :
    ∀ s : MatchState, List.Pairwise (fun a b : Fill => a.time ≤ b.time) evs →
      (∀ p ∈ s.positions, p.open_time ≤ p.close_time) →
      (∀ c, sortedQ (s.longQ c) ∧ sortedQ (s.shortQ c)) →
      (∀ c lot, lot ∈ s.longQ c ∨ lot ∈ s.shortQ c → ∀ f ∈ evs, lot.open_time ≤ f.time) →
      ∀ s', runFills s evs = some s' →
        (∀ p ∈ s'.positions, p.open_time ≤ p.close_time)
        ∧ (∀ c, sortedQ (s'.longQ c) ∧ sortedQ (s'.shortQ c)) := by
  induction evs with
  | nil =>
    intro s _ hpos hsort _ s' h
    rw [runFills] at h
    cases h
    exact ⟨hpos, hsort⟩
  | cons f rest ih =>
    intro s hpair hpos hsort hbound s' hrun
    rcases List.pairwise_cons.mp hpair with ⟨hf, hrest⟩
    rw [runFills] at hrun
    cases hpf : processFill s f with
    | none => rw [hpf] at hrun; cases hrun
    | some s1 =>
      rw [hpf] at hrun
      have hstep := processFill_preserve s f s1 hpf hpos hsort
        (fun c lot hm => hbound c lot hm f (List.mem_cons_self _ _))
      exact ih s1 hrest hstep.1 hstep.2.1
        (fun c lot hm g hg => le_trans (hstep.2.2 c lot hm) (hf g hg)) s' hrun

/-! ## Bookkeeping lemmas for the conservation argument -/

lemma pyAbs_natCast (n : ℕ) : pyAbs ((n : ℕ) : ℚ) = (n : ℚ) := by
  simp [pyAbs, not_lt.mpr (by positivity : (0 : ℚ) ≤ (n : ℚ))]

lemma fillSize_num (f : Fill) (q : ℚ) (h : f.sz = .num q) : fillSize f = pyAbs q := by
  simp [fillSize, parseSize, h]

lemma openSum_nil (c : String) (sd : Side) : openSum c sd [] = 0 := by
  simp [openSum]

lemma closeSum_nil (c : String) (sd : Side) : closeSum c sd [] = 0 := by
  simp [closeSum]

lemma openSum_cons (c : String) (sd : Side) (f : Fill) (evs : List Fill) :
    openSum c sd (f :: evs)
      = (if f.coin = c ∧ classify f.dir = openCat sd then fillSize f else 0)
        + openSum c sd evs := by
  by_cases h : f.coin = c ∧ classify f.dir = openCat sd
  · have hcond : (f.coin == c && classify f.dir == openCat sd) = true := by
      simp [h.1, h.2]
    rw [openSum, List.filter_cons, hcond, if_pos rfl, if_pos h, List.map_cons,
      List.sum_cons, ← openSum]
  · have hcond : (f.coin == c && classify f.dir == openCat sd) = false := by
      rcases not_and_or.mp h with h1 | h1 <;> simp [h1]
    rw [openSum, List.filter_cons, hcond, if_neg h]
    simp only [Bool.false_eq_true, if_false]
    rw [← openSum, zero_add]

lemma closeSum_cons (c : String) (sd : Side) (f : Fill) (evs : List Fill) :
    closeSum c sd (f :: evs)
      = (if f.coin = c ∧ classify f.dir = closeCat sd then fillSize f else 0)
        + closeSum c sd evs := by
  by_cases h : f.coin = c ∧ classify f.dir = closeCat sd
  · have hcond : (f.coin == c && classify f.dir == closeCat sd) = true := by
      simp [h.1, h.2]
    rw [closeSum, List.filter_cons, hcond, if_pos rfl, if_pos h, List.map_cons,
      List.sum_cons, ← closeSum]
  · have hcond : (f.coin == c && classify f.dir == closeCat sd) = false := by
      rcases not_and_or.mp h with h1 | h1 <;> simp [h1]
    rw [closeSum, List.filter_cons, hcond, if_neg h]
    simp only [Bool.false_eq_true, if_false]
    rw [← closeSum, zero_add]

lemma posSum_append (c : String) (sd : Side) (A B : List Position) :
    posSum c sd (A ++ B) = posSum c sd A + posSum c sd B := by
  simp [posSum, List.filter_append]

/-- Positions all tagged for the same symbol and side contribute their whole
matched total to that symbol and side. -/
lemma posSum_all (c : String) (sd : Side) (ps : List Position)
    (h : ∀ p ∈ ps, p.symbol = c ∧ p.side = sd) :
    posSum c sd ps = (ps.map Position.matched_size).sum := by
  induction ps with
  | nil => simp [posSum]
  | cons p rest ih =>
    rcases h p (List.mem_cons_self _ _) with ⟨h1, h2⟩
    rw [posSum, List.filter_cons]
    simp only [h1, h2, beq_self_eq_true, Bool.and_self, if_true]
    rw [List.map_cons, List.sum_cons, ← posSum,
      ih (fun q hq => h q (List.mem_cons_of_mem _ hq))]
    simp

/-- Positions all tagged for one symbol and side contribute nothing to any
other symbol and side. -/
lemma posSum_other (c : String) (sd : Side) (c' : String) (sd' : Side)
    (ps : List Position) (h : ∀ p ∈ ps, p.symbol = c ∧ p.side = sd)
    (hne : ¬(c' = c ∧ sd' = sd)) : posSum c' sd' ps = 0 := by
  induction ps with
  | nil => simp [posSum]
  | cons p rest ih =>
    rcases h p (List.mem_cons_self _ _) with ⟨h1, h2⟩
    rw [posSum, List.filter_cons]
    have hcond : (p.symbol == c' && p.side == sd') = false := by
      rcases not_and_or.mp hne with h3 | h3
      · have : p.symbol ≠ c' := by rw [h1]; exact fun hx => h3 hx.symm
        simp [this]
      · have : p.side ≠ sd' := by rw [h2]; exact fun hx => h3 hx.symm
        simp [this]
    rw [hcond]
    simp only [if_false, Bool.false_eq_true]
    rw [← posSum, ih (fun q hq => h q (List.mem_cons_of_mem _ hq))]

lemma qTotal_nil : qTotal [] = 0 := by simp [qTotal]

lemma qTotal_append_one (q : List Lot) (lot : Lot) :
    qTotal (q ++ [lot]) = qTotal q + lot.size := by
  simp [qTotal]

lemma lotsIntPos_nil : lotsIntPos [] := by intro lot h; cases h

lemma lotsIntPos_push (q : List Lot) (t : Int) (n : ℕ) (hn : 0 < n)
    (h : lotsIntPos q) : lotsIntPos (q ++ [⟨t, (n : ℚ)⟩]) := by
  intro lot hl
  rcases List.mem_append.mp hl with hl | hl
  · exact h lot hl
  · rcases List.mem_singleton.mp hl with rfl
    exact ⟨n, hn, rfl⟩

/-- All positions produced by one consume call are tagged with its symbol
and side. -/
lemma consume_tagged (sym : String) (sd : Side) (t : Int) (r : ℚ) (q : List Lot) :
    ∀ p ∈ (consume sym sd t r q).1, p.symbol = sym ∧ p.side = sd := by
  intro p hp
  rcases (consume_preserve sym sd t (fun _ => True) r q (fun _ _ => trivial)).1 p hp
    with ⟨_, _, h1, h2⟩
  exact ⟨h1, h2⟩

/-- All positions produced by one drain call are tagged with its symbol and
side. -/
lemma drainAll_tagged (sym : String) (sd : Side) (t : Int) (q : List Lot) :
    ∀ p ∈ drainAll sym sd t q, p.symbol = sym ∧ p.side = sd := by
  intro p hp
  rcases List.mem_map.mp hp with ⟨lot, _, rfl⟩
  exact ⟨rfl, rfl⟩

lemma drainAll_matched (sym : String) (sd : Side) (t : Int) (q : List Lot) :
    ((drainAll sym sd t q).map Position.matched_size).sum = qTotal q := by
  simp [drainAll, qTotal, List.map_map]
  rfl

/-- Queue lookup after an update of the long book. -/
lemma queueOf_updateL (s : MatchState) (coin : String) (X : List Lot)
    (c : String) (sd : Side) :
    queueOf { s with longQ := updateBook s.longQ coin X } c sd
      = if c = coin ∧ sd = .long then X else queueOf s c sd := by
  cases sd <;> by_cases hc : c = coin <;> simp [queueOf, updateBook, hc]

/-- Queue lookup after an update of the short book. -/
lemma queueOf_updateS (s : MatchState) (coin : String) (X : List Lot)
    (c : String) (sd : Side) :
    queueOf { s with shortQ := updateBook s.shortQ coin X } c sd
      = if c = coin ∧ sd = .short then X else queueOf s c sd := by
  cases sd <;> by_cases hc : c = coin <;> simp [queueOf, updateBook, hc]

/-- Queue lookup after the double update a flip performs (drain one side,
push on the other). -/
lemma queueOf_updateLS (s : MatchState) (coin : String) (X Y : List Lot)
    (c : String) (sd : Side) :
    queueOf { s with longQ := updateBook s.longQ coin X,
                     shortQ := updateBook s.shortQ coin Y } c sd
      = if c = coin ∧ sd = .long then X
        else if c = coin ∧ sd = .short then Y else queueOf s c sd := by
  cases sd <;> by_cases hc : c = coin <;> simp [queueOf, updateBook, hc]

/-- Queue lookup after an update of the long book together with a positions
append. -/
lemma queueOf_updateL2 (s : MatchState) (coin : String) (X : List Lot)
    (ps : List Position) (c : String) (sd : Side) :
    queueOf { s with longQ := updateBook s.longQ coin X, positions := ps } c sd
      = if c = coin ∧ sd = .long then X else queueOf s c sd := by
  cases sd <;> by_cases hc : c = coin <;> simp [queueOf, updateBook, hc]

/-- Queue lookup after an update of the short book together with a positions
append. -/
lemma queueOf_updateS2 (s : MatchState) (coin : String) (X : List Lot)
    (ps : List Position) (c : String) (sd : Side) :
    queueOf { s with shortQ := updateBook s.shortQ coin X, positions := ps } c sd
      = if c = coin ∧ sd = .short then X else queueOf s c sd := by
  cases sd <;> by_cases hc : c = coin <;> simp [queueOf, updateBook, hc]

lemma processFill_eq_pushL (s : MatchState) (f : Fill) (sz : ℚ)
    (hp : parseSize f.sz = some sz) (hv : ¬(f.coin = "" ∨ f.time = 0 ∨ sz = 0))
    (hc : classify f.dir = .openLong) :
    processFill s f = some (pushL s f.coin f.time sz) := by
  unfold processFill pushL
  rw [hp]
  dsimp only
  rw [if_neg hv, hc]

lemma processFill_eq_pushS (s : MatchState) (f : Fill) (sz : ℚ)
    (hp : parseSize f.sz = some sz) (hv : ¬(f.coin = "" ∨ f.time = 0 ∨ sz = 0))
    (hc : classify f.dir = .openShort) :
    processFill s f = some (pushS s f.coin f.time sz) := by
  unfold processFill pushS
  rw [hp]
  dsimp only
  rw [if_neg hv, hc]

lemma processFill_eq_closeL (s : MatchState) (f : Fill) (sz : ℚ)
    (hp : parseSize f.sz = some sz) (hv : ¬(f.coin = "" ∨ f.time = 0 ∨ sz = 0))
    (hc : classify f.dir = .closeLong) :
    processFill s f = some (closeL s f.coin f.time sz) := by
  unfold processFill closeL
  rw [hp]
  dsimp only
  rw [if_neg hv, hc]

lemma processFill_eq_closeS (s : MatchState) (f : Fill) (sz : ℚ)
    (hp : parseSize f.sz = some sz) (hv : ¬(f.coin = "" ∨ f.time = 0 ∨ sz = 0))
    (hc : classify f.dir = .closeShort) :
    processFill s f = some (closeS s f.coin f.time sz) := by
  unfold processFill closeS
  rw [hp]
  dsimp only
  rw [if_neg hv, hc]

/-- Conservation induction: over an open/close event stream with positive
integer sizes in which no close ever outruns the open size available in the
current queues, replay succeeds and matches every requested close size
exactly, while the queue totals track the net flow. -/
lemma runFills_conserve (evs : List Fill) :
    ∀ s : MatchState,
      (∀ f ∈ evs, f.coin ≠ "" ∧ f.time ≠ 0 ∧ ∃ n : ℕ, 0 < n ∧ f.sz = SzVal.num ((n : ℕ) : ℚ)) →
      (∀ f ∈ evs, classify f.dir = .openLong ∨ classify f.dir = .openShort
        ∨ classify f.dir = .closeLong ∨ classify f.dir = .closeShort) →
      (∀ c, lotsIntPos (s.longQ c) ∧ lotsIntPos (s.shortQ c)) →
      (∀ (c : String) (sd : Side) (k : ℕ),
        closeSum c sd (evs.take k) ≤ qTotal (queueOf s c sd) + openSum c sd (evs.take k)) →
      ∃ s', runFills s evs = some s'
        ∧ (∀ c sd, posSum c sd s'.positions = posSum c sd s.positions + closeSum c sd evs)
        ∧ (∀ c sd, qTotal (queueOf s' c sd)
            = qTotal (queueOf s c sd) + openSum c sd evs - closeSum c sd evs)
        ∧ (∀ c, lotsIntPos (s'.longQ c) ∧ lotsIntPos (s'.shortQ c)) := by
  induction evs with
  | nil =>
    intro s _ _ hint _
    exact ⟨s, rfl, fun c sd => by rw [closeSum_nil]; ring,
      fun c sd => by rw [closeSum_nil, openSum_nil]; ring, hint⟩
  | cons f rest ih =>
    intro s hval hcat hint hdom
    obtain ⟨hcoin, htime, n, hn0, hsz⟩ := hval f (List.mem_cons_self _ _)
    have hparse : parseSize f.sz = some ((n : ℕ) : ℚ) := by
      simp [parseSize, hsz, pyAbs_natCast]
    have hfs : fillSize f = ((n : ℕ) : ℚ) := by
      rw [fillSize_num f _ hsz, pyAbs_natCast]
    have hnz : ((n : ℕ) : ℚ) ≠ 0 := ne_of_gt (by exact_mod_cast hn0)
    have hv : ¬(f.coin = "" ∨ f.time = 0 ∨ ((n : ℕ) : ℚ) = 0) := by
      push_neg; exact ⟨hcoin, htime, hnz⟩
    have hval' := fun g hg => hval g (List.mem_cons_of_mem _ hg)
    have hcat' := fun g hg => hcat g (List.mem_cons_of_mem _ hg)
    rcases hcat f (List.mem_cons_self _ _) with hc | hc | hc | hc
    · -- openLong
      have hopeniff : ∀ sd, classify f.dir = openCat sd ↔ sd = Side.long := by
        intro sd; cases sd <;> simp [openCat, hc]
      have hcloseiff : ∀ sd, ¬ classify f.dir = closeCat sd := by
        intro sd; cases sd <;> simp [closeCat, hc]
      have hosum : ∀ (c : String) (sd : Side) (tk : List Fill),
          openSum c sd (f :: tk)
            = (if c = f.coin ∧ sd = Side.long then ((n : ℕ) : ℚ) else 0)
              + openSum c sd tk := by
        intro c sd tk
        rw [openSum_cons]
        congr 1
        by_cases h : c = f.coin ∧ sd = Side.long
        · rw [if_pos h, if_pos ⟨h.1.symm, (hopeniff sd).mpr h.2⟩, hfs]
        · rw [if_neg h, if_neg (fun hx => h ⟨hx.1.symm, (hopeniff sd).mp hx.2⟩)]
      have hcsum : ∀ (c : String) (sd : Side) (tk : List Fill),
          closeSum c sd (f :: tk) = closeSum c sd tk := by
        intro c sd tk
        rw [closeSum_cons, if_neg (fun hx => hcloseiff sd hx.2), zero_add]
      have hpf := processFill_eq_pushL s f _ hparse hv hc
      have hqs1 : ∀ (c : String) (sd : Side),
          qTotal (queueOf (pushL s f.coin f.time ((n : ℕ) : ℚ)) c sd)
            = qTotal (queueOf s c sd)
              + (if c = f.coin ∧ sd = Side.long then ((n : ℕ) : ℚ) else 0) := by
        intro c sd
        unfold pushL
        rw [queueOf_updateL]
        by_cases h : c = f.coin ∧ sd = Side.long
        · obtain ⟨rfl, rfl⟩ := h
          rw [if_pos ⟨rfl, rfl⟩, if_pos ⟨rfl, rfl⟩, qTotal_append_one]
          rfl
        · rw [if_neg h, if_neg h]
          ring
      have hint1 : ∀ c, lotsIntPos ((pushL s f.coin f.time ((n : ℕ) : ℚ)).longQ c)
          ∧ lotsIntPos ((pushL s f.coin f.time ((n : ℕ) : ℚ)).shortQ c) := by
        intro c
        unfold pushL
        refine ⟨?_, (hint c).2⟩
        dsimp only
        unfold updateBook
        split
        · exact lotsIntPos_push _ _ _ hn0 (hint f.coin).1
        · exact (hint c).1
      have hdom1 : ∀ (c : String) (sd : Side) (k : ℕ),
          closeSum c sd (rest.take k)
            ≤ qTotal (queueOf (pushL s f.coin f.time ((n : ℕ) : ℚ)) c sd)
              + openSum c sd (rest.take k) := by
        intro c sd k
        have := hdom c sd (k + 1)
        rw [List.take_succ_cons, hcsum, hosum] at this
        rw [hqs1]
        by_cases h : c = f.coin ∧ sd = Side.long
        · rw [if_pos h] at this ⊢; linarith
        · rw [if_neg h] at this ⊢; linarith
      obtain ⟨s', hrun', hpos', hqt', hint'⟩ := ih _ hval' hcat' hint1 hdom1
      refine ⟨s', ?_, ?_, ?_, hint'⟩
      · rw [runFills, hpf]
        exact hrun'
      · intro c sd
        rw [hcsum]
        exact hpos' c sd
      · intro c sd
        rw [hqt' c sd, hqs1 c sd, hosum, hcsum]
        ring
    · -- openShort
      have hopeniff : ∀ sd, classify f.dir = openCat sd ↔ sd = Side.short := by
        intro sd; cases sd <;> simp [openCat, hc]
      have hcloseiff : ∀ sd, ¬ classify f.dir = closeCat sd := by
        intro sd; cases sd <;> simp [closeCat, hc]
      have hosum : ∀ (c : String) (sd : Side) (tk : List Fill),
          openSum c sd (f :: tk)
            = (if c = f.coin ∧ sd = Side.short then ((n : ℕ) : ℚ) else 0)
              + openSum c sd tk := by
        intro c sd tk
        rw [openSum_cons]
        congr 1
        by_cases h : c = f.coin ∧ sd = Side.short
        · rw [if_pos h, if_pos ⟨h.1.symm, (hopeniff sd).mpr h.2⟩, hfs]
        · rw [if_neg h, if_neg (fun hx => h ⟨hx.1.symm, (hopeniff sd).mp hx.2⟩)]
      have hcsum : ∀ (c : String) (sd : Side) (tk : List Fill),
          closeSum c sd (f :: tk) = closeSum c sd tk := by
        intro c sd tk
        rw [closeSum_cons, if_neg (fun hx => hcloseiff sd hx.2), zero_add]
      have hpf := processFill_eq_pushS s f _ hparse hv hc
      have hqs1 : ∀ (c : String) (sd : Side),
          qTotal (queueOf (pushS s f.coin f.time ((n : ℕ) : ℚ)) c sd)
            = qTotal (queueOf s c sd)
              + (if c = f.coin ∧ sd = Side.short then ((n : ℕ) : ℚ) else 0) := by
        intro c sd
        unfold pushS
        rw [queueOf_updateS]
        by_cases h : c = f.coin ∧ sd = Side.short
        · obtain ⟨rfl, rfl⟩ := h
          rw [if_pos ⟨rfl, rfl⟩, if_pos ⟨rfl, rfl⟩, qTotal_append_one]
          rfl
        · rw [if_neg h, if_neg h]
          ring
      have hint1 : ∀ c, lotsIntPos ((pushS s f.coin f.time ((n : ℕ) : ℚ)).longQ c)
          ∧ lotsIntPos ((pushS s f.coin f.time ((n : ℕ) : ℚ)).shortQ c) := by
        intro c
        unfold pushS
        refine ⟨(hint c).1, ?_⟩
        dsimp only
        unfold updateBook
        split
        · exact lotsIntPos_push _ _ _ hn0 (hint f.coin).2
        · exact (hint c).2
      have hdom1 : ∀ (c : String) (sd : Side) (k : ℕ),
          closeSum c sd (rest.take k)
            ≤ qTotal (queueOf (pushS s f.coin f.time ((n : ℕ) : ℚ)) c sd)
              + openSum c sd (rest.take k) := by
        intro c sd k
        have := hdom c sd (k + 1)
        rw [List.take_succ_cons, hcsum, hosum] at this
        rw [hqs1]
        by_cases h : c = f.coin ∧ sd = Side.short
        · rw [if_pos h] at this ⊢; linarith
        · rw [if_neg h] at this ⊢; linarith
      obtain ⟨s', hrun', hpos', hqt', hint'⟩ := ih _ hval' hcat' hint1 hdom1
      refine ⟨s', ?_, ?_, ?_, hint'⟩
      · rw [runFills, hpf]
        exact hrun'
      · intro c sd
        rw [hcsum]
        exact hpos' c sd
      · intro c sd
        rw [hqt' c sd, hqs1 c sd, hosum, hcsum]
        ring
    · -- closeLong
      have hcloseiff : ∀ sd, classify f.dir = closeCat sd ↔ sd = Side.long := by
        intro sd; cases sd <;> simp [closeCat, hc]
      have hopeniff : ∀ sd, ¬ classify f.dir = openCat sd := by
        intro sd; cases sd <;> simp [openCat, hc]
      have hcsum : ∀ (c : String) (sd : Side) (tk : List Fill),
          closeSum c sd (f :: tk)
            = (if c = f.coin ∧ sd = Side.long then ((n : ℕ) : ℚ) else 0)
              + closeSum c sd tk := by
        intro c sd tk
        rw [closeSum_cons]
        congr 1
        by_cases h : c = f.coin ∧ sd = Side.long
        · rw [if_pos h, if_pos ⟨h.1.symm, (hcloseiff sd).mpr h.2⟩, hfs]
        · rw [if_neg h, if_neg (fun hx => h ⟨hx.1.symm, (hcloseiff sd).mp hx.2⟩)]
      have hosum : ∀ (c : String) (sd : Side) (tk : List Fill),
          openSum c sd (f :: tk) = openSum c sd tk := by
        intro c sd tk
        rw [openSum_cons, if_neg (fun hx => hopeniff sd hx.2), zero_add]
      have havail : ((n : ℕ) : ℚ) ≤ qTotal (s.longQ f.coin) := by
        have := hdom f.coin Side.long 1
        rw [List.take_succ_cons, List.take_zero, hcsum, hosum,
          if_pos ⟨rfl, rfl⟩, closeSum_nil, openSum_nil] at this
        simpa [queueOf] using this
      have hcons := consume_int_exact f.coin Side.long f.time n (s.longQ f.coin)
        (hint f.coin).1 havail
      have hpf := processFill_eq_closeL s f _ hparse hv hc
      have hqs1 : ∀ (c : String) (sd : Side),
          qTotal (queueOf (closeL s f.coin f.time ((n : ℕ) : ℚ)) c sd)
            = qTotal (queueOf s c sd)
              - (if c = f.coin ∧ sd = Side.long then ((n : ℕ) : ℚ) else 0) := by
        intro c sd
        unfold closeL
        rw [queueOf_updateL2]
        by_cases h : c = f.coin ∧ sd = Side.long
        · obtain ⟨rfl, rfl⟩ := h
          rw [if_pos ⟨rfl, rfl⟩, if_pos ⟨rfl, rfl⟩, hcons.2.1]
          rfl
        · rw [if_neg h, if_neg h]
          ring
      have hint1 : ∀ c, lotsIntPos ((closeL s f.coin f.time ((n : ℕ) : ℚ)).longQ c)
          ∧ lotsIntPos ((closeL s f.coin f.time ((n : ℕ) : ℚ)).shortQ c) := by
        intro c
        unfold closeL
        refine ⟨?_, (hint c).2⟩
        dsimp only
        unfold updateBook
        split
        · exact hcons.2.2
        · exact (hint c).1
      have hdom1 : ∀ (c : String) (sd : Side) (k : ℕ),
          closeSum c sd (rest.take k)
            ≤ qTotal (queueOf (closeL s f.coin f.time ((n : ℕ) : ℚ)) c sd)
              + openSum c sd (rest.take k) := by
        intro c sd k
        have := hdom c sd (k + 1)
        rw [List.take_succ_cons, hcsum, hosum] at this
        rw [hqs1]
        by_cases h : c = f.coin ∧ sd = Side.long
        · rw [if_pos h] at this ⊢; linarith
        · rw [if_neg h] at this ⊢; linarith
      obtain ⟨s', hrun', hpos', hqt', hint'⟩ := ih _ hval' hcat' hint1 hdom1
      refine ⟨s', ?_, ?_, ?_, hint'⟩
      · rw [runFills, hpf]
        exact hrun'
      · intro c sd
        rw [hpos' c sd, hcsum]
        have htag := consume_tagged f.coin Side.long f.time ((n : ℕ) : ℚ) (s.longQ f.coin)
        have hps : posSum c sd (closeL s f.coin f.time ((n : ℕ) : ℚ)).positions
            = posSum c sd s.positions
              + (if c = f.coin ∧ sd = Side.long then ((n : ℕ) : ℚ) else 0) := by
          unfold closeL
          dsimp only
          rw [posSum_append]
          congr 1
          by_cases h : c = f.coin ∧ sd = Side.long
          · obtain ⟨rfl, rfl⟩ := h
            rw [if_pos ⟨rfl, rfl⟩, posSum_all _ _ _ htag, hcons.1]
          · rw [if_neg h, posSum_other f.coin Side.long c sd _ htag
              (fun hx => h ⟨hx.1, hx.2⟩)]
        rw [hps]
        ring
      · intro c sd
        rw [hqt' c sd, hqs1 c sd, hosum, hcsum]
        ring
    · -- closeShort
      have hcloseiff : ∀ sd, classify f.dir = closeCat sd ↔ sd = Side.short := by
        intro sd; cases sd <;> simp [closeCat, hc]
      have hopeniff : ∀ sd, ¬ classify f.dir = openCat sd := by
        intro sd; cases sd <;> simp [openCat, hc]
      have hcsum : ∀ (c : String) (sd : Side) (tk : List Fill),
          closeSum c sd (f :: tk)
            = (if c = f.coin ∧ sd = Side.short then ((n : ℕ) : ℚ) else 0)
              + closeSum c sd tk := by
        intro c sd tk
        rw [closeSum_cons]
        congr 1
        by_cases h : c = f.coin ∧ sd = Side.short
        · rw [if_pos h, if_pos ⟨h.1.symm, (hcloseiff sd).mpr h.2⟩, hfs]
        · rw [if_neg h, if_neg (fun hx => h ⟨hx.1.symm, (hcloseiff sd).mp hx.2⟩)]
      have hosum : ∀ (c : String) (sd : Side) (tk : List Fill),
          openSum c sd (f :: tk) = openSum c sd tk := by
        intro c sd tk
        rw [openSum_cons, if_neg (fun hx => hopeniff sd hx.2), zero_add]
      have havail : ((n : ℕ) : ℚ) ≤ qTotal (s.shortQ f.coin) := by
        have := hdom f.coin Side.short 1
        rw [List.take_succ_cons, List.take_zero, hcsum, hosum,
          if_pos ⟨rfl, rfl⟩, closeSum_nil, openSum_nil] at this
        simpa [queueOf] using this
      have hcons := consume_int_exact f.coin Side.short f.time n (s.shortQ f.coin)
        (hint f.coin).2 havail
      have hpf := processFill_eq_closeS s f _ hparse hv hc
      have hqs1 : ∀ (c : String) (sd : Side),
          qTotal (queueOf (closeS s f.coin f.time ((n : ℕ) : ℚ)) c sd)
            = qTotal (queueOf s c sd)
              - (if c = f.coin ∧ sd = Side.short then ((n : ℕ) : ℚ) else 0) := by
        intro c sd
        unfold closeS
        rw [queueOf_updateS2]
        by_cases h : c = f.coin ∧ sd = Side.short
        · obtain ⟨rfl, rfl⟩ := h
          rw [if_pos ⟨rfl, rfl⟩, if_pos ⟨rfl, rfl⟩, hcons.2.1]
          rfl
        · rw [if_neg h, if_neg h]
          ring
      have hint1 : ∀ c, lotsIntPos ((closeS s f.coin f.time ((n : ℕ) : ℚ)).longQ c)
          ∧ lotsIntPos ((closeS s f.coin f.time ((n : ℕ) : ℚ)).shortQ c) := by
        intro c
        unfold closeS
        refine ⟨(hint c).1, ?_⟩
        dsimp only
        unfold updateBook
        split
        · exact hcons.2.2
        · exact (hint c).2
      have hdom1 : ∀ (c : String) (sd : Side) (k : ℕ),
          closeSum c sd (rest.take k)
            ≤ qTotal (queueOf (closeS s f.coin f.time ((n : ℕ) : ℚ)) c sd)
              + openSum c sd (rest.take k) := by
        intro c sd k
        have := hdom c sd (k + 1)
        rw [List.take_succ_cons, hcsum, hosum] at this
        rw [hqs1]
        by_cases h : c = f.coin ∧ sd = Side.short
        · rw [if_pos h] at this ⊢; linarith
        · rw [if_neg h] at this ⊢; linarith
      obtain ⟨s', hrun', hpos', hqt', hint'⟩ := ih _ hval' hcat' hint1 hdom1
      refine ⟨s', ?_, ?_, ?_, hint'⟩
      · rw [runFills, hpf]
        exact hrun'
      · intro c sd
        rw [hpos' c sd, hcsum]
        have htag := consume_tagged f.coin Side.short f.time ((n : ℕ) : ℚ) (s.shortQ f.coin)
        have hps : posSum c sd (closeS s f.coin f.time ((n : ℕ) : ℚ)).positions
            = posSum c sd s.positions
              + (if c = f.coin ∧ sd = Side.short then ((n : ℕ) : ℚ) else 0) := by
          unfold closeS
          dsimp only
          rw [posSum_append]
          congr 1
          by_cases h : c = f.coin ∧ sd = Side.short
          · obtain ⟨rfl, rfl⟩ := h
            rw [if_pos ⟨rfl, rfl⟩, posSum_all _ _ _ htag, hcons.1]
          · rw [if_neg h, posSum_other f.coin Side.short c sd _ htag
              (fun hx => h ⟨hx.1, hx.2⟩)]
        rw [hps]
        ring
      · intro c sd
        rw [hqt' c sd, hqs1 c sd, hosum, hcsum]
        ring

lemma processFill_eq_flipLS (s : MatchState) (f : Fill) (sz : ℚ)
    (hp : parseSize f.sz = some sz) (hv : ¬(f.coin = "" ∨ f.time = 0 ∨ sz = 0))
    (hc : classify f.dir = .flipLongToShort) :
    processFill s f = some (flipLS s f.coin f.time sz) := by
  unfold processFill flipLS
  rw [hp]
  dsimp only
  rw [if_neg hv, hc]

lemma processFill_eq_flipSL (s : MatchState) (f : Fill) (sz : ℚ)
    (hp : parseSize f.sz = some sz) (hv : ¬(f.coin = "" ∨ f.time = 0 ∨ sz = 0))
    (hc : classify f.dir = .flipShortToLong) :
    processFill s f = some (flipSL s f.coin f.time sz) := by
  unfold processFill flipSL
  rw [hp]
  dsimp only
  rw [if_neg hv, hc]

/-- The bucket-classification loop computes exactly the hold durations of
the positions whose close time lies at or after each cutoff. -/
lemma bucketLists_eq (t w m : Int) (ps : List Position) :
    bucketLists t w m ps
      = ((ps.filter fun p => t ≤ p.close_time).map holdDays,
         (ps.filter fun p => w ≤ p.close_time).map holdDays,
         (ps.filter fun p => m ≤ p.close_time).map holdDays,
         ps.map holdDays) := by
  induction ps with
  | nil => simp [bucketLists]
  | cons p rest ih =>
    by_cases h1 : t ≤ p.close_time <;> by_cases h2 : w ≤ p.close_time <;>
      by_cases h3 : m ≤ p.close_time <;>
      simp [bucketLists, List.filter_cons, h1, h2, h3, ih]

/-! ## Claims -/

/-- C3 (counterexample): the claimed scenario opens its lot at timestamp 0,
but the validity filter discards any fill whose timestamp is 0 (`not
timestamp` in the source), so this exact event sequence emits no position at
all rather than the two claimed ones. -/
theorem C3_time_zero_counterexample :
    (matchFills [⟨"BTC", "Open Long", 0, .num 10⟩, ⟨"BTC", "Close Long", 1, .num 4⟩,
        ⟨"BTC", "Close Long", 2, .num 6⟩]).map MatchState.positions = some [] := by
  norm_num [matchFills, sortFills, List.insertionSort, List.orderedInsert, runFills,
    processFill, parseSize, pyAbs, epsilon, consume, updateBook, initState, drainAll,
    classify_open_long, classify_close_long,
    show ("BTC" : String) ≠ "" from by decide]

/-- C3 (amended): with the open at a positive timestamp, Open(t=1, size=10);
Close(t=2, size=4); Close(t=3, size=6) emits exactly the two positions
(open=1, close=2, size=4) and (open=1, close=3, size=6), and both lot queues
for the symbol are empty afterwards. -/
theorem C3_partial_close_two_positions :
    (matchFills [⟨"BTC", "Open Long", 1, .num 10⟩, ⟨"BTC", "Close Long", 2, .num 4⟩,
        ⟨"BTC", "Close Long", 3, .num 6⟩]).map
      (fun s => (s.positions, s.longQ "BTC", s.shortQ "BTC"))
      = some ([⟨"BTC", .long, 1, 2, 4⟩, ⟨"BTC", .long, 1, 3, 6⟩], [], []) := by
  norm_num [matchFills, sortFills, List.insertionSort, List.orderedInsert, runFills,
    processFill, parseSize, pyAbs, epsilon, consume, updateBook, initState, drainAll,
    classify_open_long, classify_close_long,
    show ("BTC" : String) ≠ "" from by decide]

/-- C4 (counterexample): the example in the claim opens its long lot at
timestamp 0; that fill is discarded by the validity filter, so the
subsequent flip drains an empty queue and emits no position, not exactly
one. -/
theorem C4_time_zero_counterexample :
    (matchFills [⟨"BTC", "Open Long", 0, .num 5⟩, ⟨"BTC", "Long > Short", 1, .num 8⟩]).map
      MatchState.positions = some [] := by
  norm_num [matchFills, sortFills, List.insertionSort, List.orderedInsert, runFills,
    processFill, parseSize, pyAbs, epsilon, consume, updateBook, initState, drainAll,
    classify_open_long, classify_long_gt_short,
    show ("BTC" : String) ≠ "" from by decide]

/-- C4 (amended): for every fill that passes validity filtering and
classifies as a flip, processing drains every lot of the opposite queue
regardless of the flip size — one position per drained lot, with the lot
size matched in full and the flip timestamp as close time — and then pushes
a lot of the flip size on the new side; concretely, OpenLong(t=1, size=5);
FlipLongToShort(t=2, size=8) emits exactly the position (open=1, close=2,
size=5) and opens a short lot of size 8 at t=2, which a CloseShort(t=3,
size=8) then turns into the position (open=2, close=3, size=8). -/
theorem C4_flip_drains_all :
    (∀ (s : MatchState) (f : Fill) (sz : ℚ), parseSize f.sz = some sz →
      ¬(f.coin = "" ∨ f.time = 0 ∨ sz = 0) →
      (classify f.dir = .flipLongToShort →
        ∃ s', processFill s f = some s'
          ∧ s'.longQ f.coin = []
          ∧ s'.shortQ f.coin = s.shortQ f.coin ++ [⟨f.time, sz⟩]
          ∧ s'.positions = s.positions
              ++ (s.longQ f.coin).map
                (fun lot => ⟨f.coin, .long, lot.open_time, f.time, lot.size⟩))
      ∧ (classify f.dir = .flipShortToLong →
        ∃ s', processFill s f = some s'
          ∧ s'.shortQ f.coin = []
          ∧ s'.longQ f.coin = s.longQ f.coin ++ [⟨f.time, sz⟩]
          ∧ s'.positions = s.positions
              ++ (s.shortQ f.coin).map
                (fun lot => ⟨f.coin, .short, lot.open_time, f.time, lot.size⟩)))
    ∧ (matchFills [⟨"BTC", "Open Long", 1, .num 5⟩, ⟨"BTC", "Long > Short", 2, .num 8⟩,
         ⟨"BTC", "Close Short", 3, .num 8⟩]).map
        (fun s => (s.positions, s.longQ "BTC", s.shortQ "BTC"))
        = some ([⟨"BTC", .long, 1, 2, 5⟩, ⟨"BTC", .short, 2, 3, 8⟩], [], []) := by
  constructor
  · intro s f sz hp hv
    constructor
    · intro hc
      refine ⟨flipLS s f.coin f.time sz, processFill_eq_flipLS s f sz hp hv hc,
        ?_, ?_, ?_⟩
      · simp [flipLS, updateBook]
      · simp [flipLS, updateBook]
      · simp [flipLS, drainAll]
    · intro hc
      refine ⟨flipSL s f.coin f.time sz, processFill_eq_flipSL s f sz hp hv hc,
        ?_, ?_, ?_⟩
      · simp [flipSL, updateBook]
      · simp [flipSL, updateBook]
      · simp [flipSL, drainAll]
  · norm_num [matchFills, sortFills, List.insertionSort, List.orderedInsert, runFills,
      processFill, parseSize, pyAbs, epsilon, consume, updateBook, initState, drainAll,
      classify_open_long, classify_long_gt_short, classify_close_short,
      show ("BTC" : String) ≠ "" from by decide]

/-- Witness for C4: a long-to-short flip on a fresh book at t=5 with size 3
drains the (empty) long queue and opens a short lot of size 3. -/
theorem C4_flip_drains_all_witness :
    ∃ s', processFill initState ⟨"BTC", "Long > Short", 5, SzVal.num 3⟩ = some s'
      ∧ s'.longQ "BTC" = []
      ∧ s'.shortQ "BTC" = initState.shortQ "BTC" ++ [⟨5, 3⟩]
      ∧ s'.positions = initState.positions
          ++ (initState.longQ "BTC").map
            (fun lot => ⟨"BTC", .long, lot.open_time, 5, lot.size⟩) :=
  (C4_flip_drains_all.1 initState ⟨"BTC", "Long > Short", 5, SzVal.num 3⟩ 3
    (by norm_num [parseSize, pyAbs])
    (by push_neg; exact ⟨by decide, by decide, by norm_num⟩)).1 classify_long_gt_short

/-- C5 (counterexample): a fill with a negative timestamp is not dropped:
the source only tests `not timestamp`, which is true solely for 0, so a Buy
at t = -1 pushes a long lot and changes the queue. -/
theorem C5_negative_time_counterexample :
    (matchFills [⟨"BTC", "Buy", -1, .num 5⟩]).map (fun s => s.longQ "BTC")
      = some [⟨-1, 5⟩] := by
  norm_num [matchFills, sortFills, List.insertionSort, List.orderedInsert, runFills,
    processFill, parseSize, pyAbs, epsilon, consume, updateBook, initState, drainAll,
    classify_buy, show ("BTC" : String) ≠ "" from by decide]

/-- C5 (amended): a fill with an empty symbol, a timestamp equal to 0 (the
value a missing key defaults to), or a parsed size of zero is dropped before
matching: it contributes no lot, no position, and leaves the whole state
unchanged.  Negative timestamps are not dropped. -/
theorem C5_drop_rule (f : Fill) (s : MatchState) (sz : ℚ)
    (hp : parseSize f.sz = some sz) (hv : f.coin = "" ∨ f.time = 0 ∨ sz = 0) :
    processFill s f = some s := by
  unfold processFill
  rw [hp]
  dsimp only
  rw [if_pos hv]

/-- Witness for C5: a Buy fill at timestamp 0 is dropped. -/
theorem C5_drop_rule_witness :
    processFill initState ⟨"BTC", "Buy", 0, SzVal.num 5⟩ = some initState :=
  C5_drop_rule ⟨"BTC", "Buy", 0, SzVal.num 5⟩ initState 5
    (by norm_num [parseSize, pyAbs]) (Or.inr (Or.inl rfl))

/-- C6: contrary to the claim, an unparsable size string is not treated as
absent: `float` raises before the fill could be dropped, and the
computation produces no result (the exception, modelled as `none`,
propagates out of both the matching pass and the whole calculation). -/
theorem C6_unparsable_size_raises :
    matchFills [⟨"BTC", "Buy", 1, SzVal.badStr⟩] = none
    ∧ calculate_hold_time_stats [⟨"BTC", "Buy", 1, SzVal.badStr⟩] 0 = none := by
  constructor <;>
    norm_num [calculate_hold_time_stats, matchFills, sortFills, List.insertionSort,
      List.orderedInsert, runFills, processFill, parseSize, initState]

/-- C7 (counterexample): the direction "BUY" is compared case-sensitively
against the exact spot label, matches nothing, and is ignored: no long lot
is pushed and no position is emitted. -/
theorem C7_uppercase_buy_counterexample :
    (matchFills [⟨"BTC", "BUY", 1, .num 5⟩]).map
      (fun s => (s.longQ "BTC", s.positions)) = some ([], []) := by
  norm_num [matchFills, sortFills, List.insertionSort, List.orderedInsert, runFills,
    processFill, parseSize, pyAbs, epsilon, consume, updateBook, initState, drainAll,
    classify_BUY, show ("BTC" : String) ≠ "" from by decide]

/-- C7 (amended): spot labels are matched case-sensitively after whitespace
stripping: exactly "Buy" classifies as open-long and exactly "Sell" as
close-long, while any other casing of buy/sell (for example "BUY" or
"buy") classifies to the unclassified branch, which leaves the state
untouched whenever size parsing succeeds. -/
theorem C7_spot_labels_exact_case :
    (∀ d : String, stripChars d.data = "Buy".data → classify d = .openLong)
    ∧ (∀ d : String, stripChars d.data = "Sell".data → classify d = .closeLong)
    ∧ (∀ d : String, stripChars d.data ≠ "Buy".data →
        lowerChars (stripChars d.data) = "buy".data → classify d = .unclassified)
    ∧ (∀ d : String, stripChars d.data ≠ "Sell".data →
        lowerChars (stripChars d.data) = "sell".data → classify d = .unclassified)
    ∧ (∀ (s : MatchState) (f : Fill) (sz : ℚ), parseSize f.sz = some sz →
        classify f.dir = .unclassified → processFill s f = some s) := by
  refine ⟨?_, ?_, ?_, ?_, ?_⟩
  · intro d h
    unfold classify
    simp only [h]
    decide
  · intro d h
    unfold classify
    simp only [h]
    decide
  · intro d h1 h2
    have h3 : stripChars d.data ≠ "Sell".data := by
      intro hx
      rw [hx] at h2
      exact absurd h2 (by decide)
    unfold classify
    simp only [h2]
    rw [if_neg h1, if_neg h3]
    decide
  · intro d h1 h2
    have h3 : stripChars d.data ≠ "Buy".data := by
      intro hx
      rw [hx] at h2
      exact absurd h2 (by decide)
    unfold classify
    simp only [h2]
    rw [if_neg h3, if_neg h1]
    decide
  · intro s f sz hp hcls
    unfold processFill
    rw [hp]
    dsimp only
    by_cases hv : f.coin = "" ∨ f.time = 0 ∨ sz = 0
    · rw [if_pos hv]
    · rw [if_neg hv, hcls]

/-- Witness for C7: the exact label "Buy" opens long while the upper-case
variant "BUY" is unclassified. -/
theorem C7_spot_labels_exact_case_witness :
    classify "Buy" = .openLong ∧ classify "BUY" = .unclassified :=
  ⟨C7_spot_labels_exact_case.1 "Buy" (by decide),
   C7_spot_labels_exact_case.2.2.1 "BUY" (by decide) (by decide)⟩

/-- C1: whenever a close request above the epsilon threshold meets a
non-empty FIFO-ordered queue, matching consumes a non-empty prefix of the
queue starting at its head (the lot with the smallest open time), and every
position emitted is at least as old as every lot left behind; in
particular Open(t=100, size=5); Open(t=200, size=5); Close(t=300, size=5)
emits exactly one position and its open time is 100, not 200. -/
theorem C1_fifo_oldest_first :
    (∀ (sym : String) (sd : Side) (t : Int) (r : ℚ) (q : List Lot),
      q ≠ [] → epsilon < r → sortedQ q →
      (∃ k, 1 ≤ k ∧ (consume sym sd t r q).1.map Position.open_time
          = (q.map Lot.open_time).take k)
      ∧ (∀ p ∈ (consume sym sd t r q).1, ∀ lot ∈ (consume sym sd t r q).2,
          p.open_time ≤ lot.open_time))
    ∧ (matchFills [⟨"BTC", "Open Long", 100, .num 5⟩, ⟨"BTC", "Open Long", 200, .num 5⟩,
        ⟨"BTC", "Close Long", 300, .num 5⟩]).map
      (fun s => s.positions.map Position.open_time) = some [100] := by
  constructor
  · intro sym sd t r q hq hr hsort
    refine ⟨?_, consume_emitted_le_rest sym sd t r q hsort⟩
    obtain ⟨k, hk⟩ := consume_map_open_take sym sd t r q
    rcases q with _ | ⟨lot, rest⟩
    · exact absurd rfl hq
    · obtain ⟨ps, hps⟩ := consume_head_first sym sd t r lot rest hr
      cases k with
      | zero =>
        rw [hps] at hk
        simp at hk
      | succ j => exact ⟨j + 1, Nat.succ_le_succ (Nat.zero_le _), hk⟩
  · norm_num [matchFills, sortFills, List.insertionSort, List.orderedInsert, runFills,
      processFill, parseSize, pyAbs, epsilon, consume, updateBook, initState, drainAll,
      classify_open_long, classify_close_long,
      show ("BTC" : String) ≠ "" from by decide]

/-- Witness for C1: consuming 5 against the queue of lots opened at 100 and
200 takes a non-empty prefix starting at the head, and the emitted position
is no newer than the surviving lot. -/
theorem C1_fifo_oldest_first_witness :
    (∃ k, 1 ≤ k
      ∧ (consume "BTC" Side.long 300 5 [⟨100, 5⟩, ⟨200, 5⟩]).1.map Position.open_time
        = (([⟨100, 5⟩, ⟨200, 5⟩] : List Lot).map Lot.open_time).take k)
    ∧ (∀ p ∈ (consume "BTC" Side.long 300 5 [⟨100, 5⟩, ⟨200, 5⟩]).1,
        ∀ lot ∈ (consume "BTC" Side.long 300 5 [⟨100, 5⟩, ⟨200, 5⟩]).2,
          p.open_time ≤ lot.open_time) :=
  C1_fifo_oldest_first.1 "BTC" Side.long 300 5 [⟨100, 5⟩, ⟨200, 5⟩]
    (by simp) (by norm_num [epsilon]) (by norm_num [sortedQ, List.pairwise_cons])

/-- C2 (counterexample): with a fractional size below the 1e-9 loop guard,
the close request is abandoned before consuming anything, so the matched
total (0) differs from the close total (1e-10) even though cumulative close
size never exceeds cumulative prior open size. -/
theorem C2_epsilon_counterexample :
    (matchFills [⟨"BTC", "Open Long", 1, .num (1 / 10000000000)⟩,
        ⟨"BTC", "Close Long", 2, .num (1 / 10000000000)⟩]).map MatchState.positions
      = some []
    ∧ closeSum "BTC" Side.long [⟨"BTC", "Open Long", 1, .num (1 / 10000000000)⟩,
        ⟨"BTC", "Close Long", 2, .num (1 / 10000000000)⟩] = 1 / 10000000000
    ∧ (1 / 10000000000 : ℚ) ≠ 0 := by
  refine ⟨?_, ?_, by norm_num⟩
  · norm_num [matchFills, sortFills, List.insertionSort, List.orderedInsert, runFills,
      processFill, parseSize, pyAbs, epsilon, consume, updateBook, initState, drainAll,
      classify_open_long, classify_close_long,
      show ("BTC" : String) ≠ "" from by decide]
  · rw [closeSum_cons, closeSum_cons, closeSum_nil]
    rw [if_neg (fun hx => by
      simpa [closeCat, classify_open_long] using hx.2)]
    rw [if_pos ⟨rfl, by simp [closeCat, classify_close_long]⟩]
    norm_num [fillSize, parseSize, pyAbs]

/-- C2 (amended): over open/close event sequences (no flips) with positive
integer sizes, if at every prefix of the time-sorted stream the cumulative
close size per symbol and side stays within the cumulative open size, then
the matching pass completes and the matched total per symbol and side
equals the close total: integer sizes keep every intermediate remainder an
integer, so the 1e-9 guard never discards anything. -/
theorem C2_conservation_integer_sizes (fills : List Fill)
    (hval : ∀ f ∈ fills, f.coin ≠ "" ∧ f.time ≠ 0
      ∧ ∃ n : ℕ, 0 < n ∧ f.sz = SzVal.num ((n : ℕ) : ℚ))
    (hcat : ∀ f ∈ fills, classify f.dir = .openLong ∨ classify f.dir = .openShort
      ∨ classify f.dir = .closeLong ∨ classify f.dir = .closeShort)
    (hdom : ∀ (c : String) (sd : Side) (k : ℕ),
      closeSum c sd ((sortFills fills).take k)
        ≤ openSum c sd ((sortFills fills).take k)) :
    ∃ s, matchFills fills = some s
      ∧ ∀ (c : String) (sd : Side), posSum c sd s.positions = closeSum c sd fills := by
  have hperm : (sortFills fills).Perm fills := List.perm_insertionSort _ _
  have hvalS := fun f hf => hval f (hperm.mem_iff.mp hf)
  have hcatS := fun f hf => hcat f (hperm.mem_iff.mp hf)
  have hintI : ∀ c, lotsIntPos (initState.longQ c) ∧ lotsIntPos (initState.shortQ c) :=
    fun _ => ⟨lotsIntPos_nil, lotsIntPos_nil⟩
  have hdomI : ∀ (c : String) (sd : Side) (k : ℕ),
      closeSum c sd ((sortFills fills).take k)
        ≤ qTotal (queueOf initState c sd) + openSum c sd ((sortFills fills).take k) := by
    intro c sd k
    have hq : qTotal (queueOf initState c sd) = 0 := by
      cases sd <;> simp [initState, queueOf, qTotal]
    rw [hq, zero_add]
    exact hdom c sd k
  obtain ⟨s, hrun, hpos, _, _⟩ :=
    runFills_conserve (sortFills fills) initState hvalS hcatS hintI hdomI
  refine ⟨s, hrun, fun c sd => ?_⟩
  have h2 : posSum c sd initState.positions = 0 := by simp [initState, posSum]
  have h3 : closeSum c sd (sortFills fills) = closeSum c sd fills :=
    List.Perm.sum_eq ((hperm.filter _).map _)
  rw [hpos c sd, h2, h3, zero_add]

/-- Witness for C2: one integer open of size 1 followed by one integer close
of size 1; the matched total for the traded symbol and side equals the close
total. -/
theorem C2_conservation_integer_sizes_witness :
    (matchFills [⟨"BTC", "Open Long", 1, SzVal.num 1⟩,
        ⟨"BTC", "Close Long", 2, SzVal.num 1⟩]).map
      (fun s => posSum "BTC" Side.long s.positions)
      = some (closeSum "BTC" Side.long [⟨"BTC", "Open Long", 1, SzVal.num 1⟩,
          ⟨"BTC", "Close Long", 2, SzVal.num 1⟩]) := by
  have hval : ∀ f ∈ ([⟨"BTC", "Open Long", 1, SzVal.num 1⟩,
      ⟨"BTC", "Close Long", 2, SzVal.num 1⟩] : List Fill),
      f.coin ≠ "" ∧ f.time ≠ 0 ∧ ∃ n : ℕ, 0 < n ∧ f.sz = SzVal.num ((n : ℕ) : ℚ) := by
    intro f hf
    simp only [List.mem_cons, List.not_mem_nil, or_false] at hf
    rcases hf with rfl | rfl
    · exact ⟨by decide, by decide, 1, by decide, by norm_num⟩
    · exact ⟨by decide, by decide, 1, by decide, by norm_num⟩
  have hcat : ∀ f ∈ ([⟨"BTC", "Open Long", 1, SzVal.num 1⟩,
      ⟨"BTC", "Close Long", 2, SzVal.num 1⟩] : List Fill),
      classify f.dir = Category.openLong ∨ classify f.dir = Category.openShort
        ∨ classify f.dir = Category.closeLong ∨ classify f.dir = Category.closeShort := by
    intro f hf
    simp only [List.mem_cons, List.not_mem_nil, or_false] at hf
    rcases hf with rfl | rfl
    · exact Or.inl classify_open_long
    · exact Or.inr (Or.inr (Or.inl classify_close_long))
  have hsorted : sortFills [(⟨"BTC", "Open Long", 1, SzVal.num 1⟩ : Fill),
      ⟨"BTC", "Close Long", 2, SzVal.num 1⟩]
      = [⟨"BTC", "Open Long", 1, SzVal.num 1⟩, ⟨"BTC", "Close Long", 2, SzVal.num 1⟩] := by
    norm_num [sortFills, List.insertionSort, List.orderedInsert]
  have hdom : ∀ (c : String) (sd : Side) (k : ℕ),
      closeSum c sd ((sortFills [(⟨"BTC", "Open Long", 1, SzVal.num 1⟩ : Fill),
          ⟨"BTC", "Close Long", 2, SzVal.num 1⟩]).take k)
        ≤ openSum c sd ((sortFills [(⟨"BTC", "Open Long", 1, SzVal.num 1⟩ : Fill),
          ⟨"BTC", "Close Long", 2, SzVal.num 1⟩]).take k) := by
    intro c sd k
    rw [hsorted]
    by_cases hcc : c = "BTC"
    · subst hcc
      rcases k with _ | _ | k
      · norm_num [closeSum, openSum]
      · simp only [List.take_succ_cons, List.take_zero]
        cases sd <;>
          norm_num [closeSum, openSum, List.filter, fillSize, parseSize, pyAbs,
            classify_open_long, classify_close_long, closeCat, openCat,
            show (Category.openLong == Category.closeLong) = false from rfl,
            show (Category.openLong == Category.closeShort) = false from rfl,
            show (Category.openLong == Category.openShort) = false from rfl,
            show (Category.openLong == Category.openLong) = true from rfl,
            show (Category.closeLong == Category.closeLong) = true from rfl,
            show (Category.closeLong == Category.closeShort) = false from rfl,
            show (Category.closeLong == Category.openLong) = false from rfl,
            show (Category.closeLong == Category.openShort) = false from rfl]
      · rw [List.take_of_length_le (by simp)]
        cases sd <;>
          norm_num [closeSum, openSum, List.filter, fillSize, parseSize, pyAbs,
            classify_open_long, classify_close_long, closeCat, openCat,
            show (Category.openLong == Category.closeLong) = false from rfl,
            show (Category.openLong == Category.closeShort) = false from rfl,
            show (Category.openLong == Category.openShort) = false from rfl,
            show (Category.openLong == Category.openLong) = true from rfl,
            show (Category.closeLong == Category.closeLong) = true from rfl,
            show (Category.closeLong == Category.closeShort) = false from rfl,
            show (Category.closeLong == Category.openLong) = false from rfl,
            show (Category.closeLong == Category.openShort) = false from rfl]
    · have hne : ¬ (("BTC" : String) = c) := fun h => hcc h.symm
      have hbe : (("BTC" : String) == c) = false := beq_eq_false_iff_ne.mpr hne
      rcases k with _ | _ | k
      · norm_num [closeSum, openSum]
      · simp only [List.take_succ_cons, List.take_zero]
        norm_num [closeSum, openSum, List.filter, hbe]
      · rw [List.take_of_length_le (by simp)]
        norm_num [closeSum, openSum, List.filter, hbe]
  obtain ⟨s, hs, hsum⟩ := C2_conservation_integer_sizes
    [⟨"BTC", "Open Long", 1, SzVal.num 1⟩, ⟨"BTC", "Close Long", 2, SzVal.num 1⟩]
    hval hcat hdom
  rw [hs]
  exact congrArg some (hsum "BTC" Side.long)

/-- C8: each completed position contributes exactly one unweighted sample
of (close_time - open_time) / 86400000 days; it lands in the today / last-7
/ last-30 bucket exactly when its close time is at or after the respective
cutoff, always lands in the all-time bucket; each reported value is the
arithmetic mean of the bucket samples, and an empty bucket (including the
empty input) reports 0 without dividing by zero. -/
theorem C8_aggregator_bucket_means (ps : List Position) (todayStart : Int) :
    aggregate ps todayStart
      = ⟨meanQ ((ps.filter fun p => todayStart ≤ p.close_time).map holdDays),
         meanQ ((ps.filter fun p => todayStart - 7 * msPerDay ≤ p.close_time).map holdDays),
         meanQ ((ps.filter fun p => todayStart - 30 * msPerDay ≤ p.close_time).map holdDays),
         meanQ (ps.map holdDays)⟩
    ∧ (∀ p : Position, holdDays p = ((p.close_time - p.open_time : Int) : ℚ) / 86400000)
    ∧ meanQ [] = 0
    ∧ aggregate [] todayStart = ⟨0, 0, 0, 0⟩ := by
  refine ⟨?_, fun p => rfl, rfl, ?_⟩
  · simp only [aggregate, meanQ, bucketLists_eq]
  · simp [aggregate, bucketLists]

/-- C9: every position emitted by the matching pass closes no earlier than
it opens: fills are replayed in ascending timestamp order and every queued
lot is at least as old as the event being processed. -/
theorem C9_positions_open_le_close (fills : List Fill) (ps : List Position)
    (h : (matchFills fills).map MatchState.positions = some ps) :
    ∀ p ∈ ps, p.open_time ≤ p.close_time := by
  cases hm : matchFills fills with
  | none => rw [hm] at h; cases h
  | some s =>
    rw [hm] at h
    obtain rfl : s.positions = ps := by simpa using h
    refine (runFills_preserve (sortFills fills) initState (sortFills_pairwise fills)
      ?_ ?_ ?_ s hm).1
    · intro p hp
      simp [initState] at hp
    · intro c
      exact ⟨List.Pairwise.nil, List.Pairwise.nil⟩
    · rintro c lot (hl | hl) <;> simp [initState] at hl

/-- Witness for C9: in the partial-close run, the first emitted position
opens at 1 and closes at 2. -/
theorem C9_positions_open_le_close_witness :
    (Position.mk "BTC" Side.long 1 2 4).open_time
      ≤ (Position.mk "BTC" Side.long 1 2 4).close_time :=
  C9_positions_open_le_close
    [⟨"BTC", "Open Long", 1, .num 10⟩, ⟨"BTC", "Close Long", 2, .num 4⟩,
      ⟨"BTC", "Close Long", 3, .num 6⟩]
    [⟨"BTC", Side.long, 1, 2, 4⟩, ⟨"BTC", Side.long, 1, 3, 6⟩]
    (by norm_num [matchFills, sortFills, List.insertionSort, List.orderedInsert, runFills,
      processFill, parseSize, pyAbs, epsilon, consume, updateBook, initState, drainAll,
      classify_open_long, classify_close_long,
      show ("BTC" : String) ≠ "" from by decide])
    ⟨"BTC", Side.long, 1, 2, 4⟩ (List.mem_cons_self _ _)

/-- C10: after processing any fill sequence, every per-symbol lot queue on
both sides is ordered by non-decreasing open time from head to tail: the
empty initial queues are trivially ordered, pushes append the newest
timestamp at the tail, and closes and drains only remove from the head. -/
theorem C10_queues_sorted_fifo (fills : List Fill) (c : String) (ql qs : List Lot)
    (h : (matchFills fills).map (fun s => (s.longQ c, s.shortQ c)) = some (ql, qs)) :
    sortedQ ql ∧ sortedQ qs := by
  cases hm : matchFills fills with
  | none => rw [hm] at h; cases h
  | some s =>
    rw [hm] at h
    have h2 : (s.longQ c, s.shortQ c) = (ql, qs) := by simpa using h
    have h3 : s.longQ c = ql := congrArg Prod.fst h2
    have h4 : s.shortQ c = qs := congrArg Prod.snd h2
    subst h3
    subst h4
    refine (runFills_preserve (sortFills fills) initState (sortFills_pairwise fills)
      ?_ ?_ ?_ s hm).2 c
    · intro p hp
      simp [initState] at hp
    · intro c'
      exact ⟨List.Pairwise.nil, List.Pairwise.nil⟩
    · rintro c' lot (hl | hl) <;> simp [initState] at hl

/-- Witness for C10: two long opens at ascending times leave a long queue
ordered by open time and an empty short queue. -/
theorem C10_queues_sorted_fifo_witness :
    sortedQ [(⟨1, 5⟩ : Lot), ⟨2, 7⟩] ∧ sortedQ ([] : List Lot) :=
  C10_queues_sorted_fifo
    [⟨"BTC", "Open Long", 1, .num 5⟩, ⟨"BTC", "Open Long", 2, .num 7⟩]
    "BTC" [⟨1, 5⟩, ⟨2, 7⟩] []
    (by norm_num [matchFills, sortFills, List.insertionSort, List.orderedInsert, runFills,
      processFill, parseSize, pyAbs, epsilon, consume, updateBook, initState, drainAll,
      classify_open_long, show ("BTC" : String) ≠ "" from by decide])

end ApexFork